import Mathlib

/-!
Shallow embedding of `src/lenstra.py` (Lenstra elliptic-curve factorization).

Python integers are modeled as `ℤ`; Python's `%` on a positive modulus agrees
with `Int.emod`, which is used throughout (all moduli reaching `%` in the
modeled paths are positive in the theorems below).  A point's `y`-coordinate is
either a finite integer or `math.inf`, modeled by the inductive `YCoord`.
A `ValueError`/`ZeroDivisionError` escaping `pow(d, -1, p)` resp. `% (p * d)`
is modeled by the `Except` error of `Point.get_slope`; the error payload
records the gcd of the failing denominator with the modulus together with the
branch (doubling or general addition) that raised, which Python's exception
carries implicitly (it is determined by the state at the raise site and is
needed to state the claims about the factor-extraction step).

Randomness in `run_lenstra` is modeled by passing the list of sampled triples
`(x, y, a)` (one per loop iteration) explicitly; quantifying over all lists
covers every outcome of the random sampling and every `max_iterations` budget.
-/

namespace LenstraPy

/-- Embeds class `WeierStrassEC` (lenstra.py lines 20–32): the stored curve
parameters `a`, `b` and the modulus `p`. -/
structure WeierStrassEC where
  a : ℤ
  b : ℤ
  p : ℤ
deriving DecidableEq

/-- Error raised by the `WeierStrassEC` constructor (`InvalidCurve`). -/
inductive CurveError where
  | invalidCurve
deriving DecidableEq

/-- Embeds `WeierStrassEC.__init__` (lines 23–29): raises `InvalidCurve` when
`(4 * a³ + 27 * b²) % p == 0`, otherwise stores `a`, `b`, `p`. -/
def mkCurve (a b p : ℤ) : Except CurveError WeierStrassEC :=
  if (4 * a ^ 3 + 27 * b ^ 2) % p = 0 then .error .invalidCurve
  else .ok ⟨a, b, p⟩

/-- The `y`-coordinate of a `Point`: a finite integer or `math.inf`. -/
inductive YCoord where
  | fin (y : ℤ)
  | inf
deriving DecidableEq

/-- Embeds class `Point` (line 35): the curve it belongs to and its
coordinates. -/
structure Point where
  curve : WeierStrassEC
  x : ℤ
  y : YCoord
deriving DecidableEq

/-- Embeds `Point.__init__` (lines 38–41): `x` is reduced mod `ecc.p`, and `y`
is reduced mod `ecc.p` when finite and kept as `math.inf` otherwise. -/
def mkPoint (x : ℤ) (y : YCoord) (ecc : WeierStrassEC) : Point :=
  { curve := ecc
    x := x % ecc.p
    y := match y with
         | .fin v => .fin (v % ecc.p)
         | .inf => .inf }

/-- Embeds `Point.is_infinite` (lines 43–44). -/
def Point.isInfinite (P : Point) : Bool :=
  match P.y with
  | .fin _ => false
  | .inf => true

/-- The finite value of the `y`-coordinate; defaults to `0` on an infinite
point (the source only reads `self.y` arithmetically on affine points). -/
def Point.yval (P : Point) : ℤ :=
  match P.y with
  | .fin v => v
  | .inf => 0

/-- Embeds `Point.__eq__` (lines 54–55): `self.x == other.x and
self.y == other.y`; note `math.inf == math.inf` is `True` in Python while a
finite value never equals `math.inf`. -/
def pointEq (P Q : Point) : Bool :=
  decide (P.x = Q.x) &&
    match P.y, Q.y with
    | .fin a, .fin b => decide (a = b)
    | .inf, .inf => true
    | _, _ => false

/-- Models Python's `pow(d, -1, p)` value: the unique `t ∈ [0, p)` with
`d * t ≡ 1 (mod p)`, which is exactly what `pow` returns when `d` is
invertible mod `p` (uniqueness of the modular inverse makes the bounded
search below extensionally equal to Python's extended-Euclid computation). -/
def invMod (d p : ℤ) : ℤ :=
  match (List.range p.toNat).find? (fun t : ℕ => d * (t : ℤ) % p == 1 % p)
    with
  | some t => (t : ℤ)
  | none => 0

/-- The value computed by the final line of `Point.get_slope` (line 102):
`numerator * pow(denominator, -1, p) % p`, where `numerator` is the raw
numerator reduced `% (p * denominator)` (lines 95 and 100).  The intermediate
reduction `% (p * d)` only changes the numerator by a multiple of `p * d`,
so the resulting residue mod `p` is the one Python computes. -/
def slopeVal (raw d p : ℤ) : ℤ :=
  raw % (p * d) * invMod d p % p

/-- Embeds `Point.get_slope` (lines 86–102).  The doubling branch is taken
when `self == other` (Python `Point.__eq__`).  The computation raises — a
`ZeroDivisionError` from `% (p * denominator)` when the denominator is zero,
or a `ValueError` from `pow(denominator, -1, p)` when the denominator is not
invertible — exactly when `d = 0 ∨ Int.gcd d p ≠ 1`; the error payload records
`Int.gcd d p` (the gcd of the failing denominator with the modulus) and
whether the doubling branch raised. -/
def Point.get_slope (P Q : Point) : Except (ℕ × Bool) ℤ :=
  let p := P.curve.p
  if pointEq P Q then
    let d := 2 * P.yval
    if d = 0 ∨ Int.gcd d p ≠ 1 then .error (Int.gcd d p, true)
    else .ok (slopeVal (3 * P.x ^ 2 + P.curve.a) d p)
  else
    let d := Q.x - P.x
    if d = 0 ∨ Int.gcd d p ≠ 1 then .error (Int.gcd d p, false)
    else .ok (slopeVal (Q.yval - P.yval) d p)

/-- Embeds the body of `Point.__add__` after the same-curve check
(lines 67–84).  The second component records the inversion-failure payload
when the `except (ValueError, ZeroDivisionError)` branch (lines 77–78) was
taken, and is `none` otherwise (also on the infinite-operand branches of
lines 68–71, which return an infinite point without any inversion). -/
def Point.addCore (P Q : Point) : Point × Option (ℕ × Bool) :=
  let curve := P.curve
  if P.isInfinite then (mkPoint P.x .inf curve, none)
  else if Q.isInfinite then (mkPoint Q.x .inf curve, none)
  else
    match P.get_slope Q with
    | .error e => (mkPoint Q.x .inf curve, some e)
    | .ok s =>
      let x := (s ^ 2 - P.x - Q.x) % curve.p
      let y := (s * (P.x - x) - P.yval) % curve.p
      (mkPoint x (.fin y) curve, none)

/-- The exception of `Point.__add__` for operands on different curves
(line 65). -/
inductive AddError where
  | curveMismatch
deriving DecidableEq

deriving instance DecidableEq for Except

/-- Embeds `Point.__add__` (lines 57–84): points on different curves raise
(compared by `WeierStrassEC.__eq__`, i.e. equality of `a`, `b`, `p`);
otherwise the result is `Point.addCore`. -/
def Point.add (P Q : Point) : Except AddError Point :=
  if P.curve ≠ Q.curve then .error .curveMismatch
  else .ok (P.addCore Q).1

/-- Fuel-based bit length of a natural number, agreeing with Python's
`int.bit_length()`; the fuel `n` always suffices. -/
def bitLenAux : ℕ → ℕ → ℕ
  | 0, _ => 0
  | fuel + 1, n => if n = 0 then 0 else bitLenAux fuel (n / 2) + 1

/-- Python's `scalar.bit_length()`. -/
def bitLen (n : ℕ) : ℕ :=
  bitLenAux n n

/-- The list of loop indices of `range(scalar.bit_length() - 1, 0, -1)`
(line 137), i.e. `[bit_length − 1, …, 1]`. -/
def bitPositions (scalar : ℕ) : List ℕ :=
  ((List.range (bitLen scalar - 1)).reverse).map (· + 1)

/-- The two nonlocal variables mutated by `lenstra_mul` (lines 126–127 and
135): the accumulated point and the most recently computed point. -/
structure LState where
  point : Point
  next_point : Point
deriving DecidableEq

/-- Outcome of one `lenstra_mul` call: Python returns `True` on reaching an
infinite point (carrying, in the model, the inversion-failure payload of the
addition that produced it, `none` when the infinity was merely propagated
from an infinite operand) and falls through returning `None` otherwise. -/
inductive MulOutcome where
  | finished
  | foundInf (sig : Option (ℕ × Bool))
deriving DecidableEq

/-- Embeds the loop body of `lenstra_mul` (lines 137–151) over the remaining
list of bit positions: at each position first double `point`; on an infinite
result set `next_point` and stop, else advance `point`; when the scalar's bit
at `position - 1` is set, additionally add the start point `self`, with the
same stop-or-advance handling.  Python's `scalar >> (position-1) & 0b1` is
written `scalar >>> (position - 1) % 2`. -/
def lenstraMulGo (start : Point) (scalar : ℕ) :
    List ℕ → LState → LState × MulOutcome
  | [], st => (st, .finished)
  | pos :: rest, st =>
    let dbl := st.point.addCore st.point
    if dbl.1.isInfinite then ({ st with next_point := dbl.1 }, .foundInf dbl.2)
    else
      if scalar >>> (pos - 1) % 2 = 1 then
        let adr := dbl.1.addCore start
        if adr.1.isInfinite then (⟨dbl.1, adr.1⟩, .foundInf adr.2)
        else lenstraMulGo start scalar rest ⟨adr.1, adr.1⟩
      else lenstraMulGo start scalar rest ⟨dbl.1, dbl.1⟩

/-- Embeds `lenstra_mul` (lines 131–151): one scalar multiplication of the
accumulated state, `self` being the start point of `Point.lenstra`. -/
def lenstraMul (start : Point) (st : LState) (scalar : ℕ) :
    LState × MulOutcome :=
  lenstraMulGo start scalar (bitPositions scalar) st

/-- The candidate factor computed at line 156 when `lenstra_mul` returned
`True`: `math.gcd((point.x - next_point.x) % p, p)`. -/
def candidateFactor (st : LState) (p : ℤ) : ℕ :=
  Int.gcd ((st.point.x - st.next_point.x) % p) p

/-- Embeds the loop of `Point.lenstra` (lines 153–159) from smoothness
parameter `k` with `fuel` iterations remaining: on a `True` result from
`lenstra_mul`, compute the candidate factor and return it when
`p > factor > 1`, `None` otherwise (the loop stops either way); when the
multiplication falls through, continue with `k + 1`. -/
def lenstraFrom (start : Point) : ℕ → ℕ → LState → Option ℤ
  | 0, _, _ => none
  | fuel + 1, k, st =>
    match lenstraMul start st k with
    | (st2, .foundInf _) =>
      let p := start.curve.p
      let factor : ℤ := candidateFactor st2 p
      if 1 < factor ∧ factor < p then some factor else none
    | (st2, .finished) => lenstraFrom start fuel (k + 1) st2

/-- Embeds `Point.lenstra` (lines 122–159): `point` and `next_point` start at
`self`, and `factorial` ranges over `range(2, max_factor)`. -/
def Point.lenstra (start : Point) (max_factor : ℕ) : Option ℤ :=
  lenstraFrom start (max_factor - 2) 2 ⟨start, start⟩

/-- Embeds the sampling loop of `run_lenstra` (lines 170–191), one list
element per iteration of `range(max_iterations)`: derive
`b = (y² - x³ - a*x) % n`, skip the iteration when the curve constructor
raises `InvalidCurve`, otherwise run `Point.lenstra` on `Point(x, y, curve)`
and return its result when truthy (Python's walrus `if factor := ...` treats
`None` and `0` as falsy). -/
def runIter (n : ℤ) (max_factor : ℕ) : List (ℤ × ℤ × ℤ) → Option ℤ
  | [] => none
  | (x, y, a) :: rest =>
    let b := (y ^ 2 - x ^ 3 - a * x) % n
    match mkCurve a b n with
    | .error _ => runIter n max_factor rest
    | .ok c =>
      match (mkPoint x (.fin y) c).lenstra max_factor with
      | some f => if f = 0 then runIter n max_factor rest else some f
      | none => runIter n max_factor rest

/-- Embeds `run_lenstra` (lines 162–191): even `n` (Python `(n - 1) & 0b1`,
which equals `(n - 1) % 2` on every integer) immediately yields the factor
`2`; otherwise the sampling loop runs. -/
def run_lenstra (n : ℤ) (samples : List (ℤ × ℤ × ℤ)) (max_factor : ℕ) :
    Option ℤ :=
  if (n - 1) % 2 = 1 then some 2
  else runIter n max_factor samples

/-! ### Arithmetic helper lemmas -/

/-- Reducing the first argument of `Int.gcd` modulo the second does not change
the gcd. -/
lemma gcd_emod_left_eq (x p : ℤ) : Int.gcd (x % p) p = Int.gcd x p := by
  have hx : x % p + p * (x / p) = x := by
    rw [Int.emod_def]; ring
  apply Nat.dvd_antisymm
  · rw [← Int.natCast_dvd_natCast]
    refine Int.dvd_gcd ?_ Int.gcd_dvd_right
    have h1 : (↑(Int.gcd (x % p) p) : ℤ) ∣ x % p + p * (x / p) :=
      dvd_add Int.gcd_dvd_left (Dvd.dvd.mul_right Int.gcd_dvd_right _)
    rwa [hx] at h1
  · rw [← Int.natCast_dvd_natCast]
    refine Int.dvd_gcd ?_ Int.gcd_dvd_right
    have h1 : (↑(Int.gcd x p) : ℤ) ∣ x - p * (x / p) :=
      dvd_sub Int.gcd_dvd_left (Dvd.dvd.mul_right Int.gcd_dvd_right _)
    rwa [← Int.emod_def] at h1

/-- Congruent integers have the same gcd with the modulus. -/
lemma gcd_eq_of_emod_eq {x y p : ℤ} (h : x % p = y % p) :
    Int.gcd x p = Int.gcd y p := by
  rw [← gcd_emod_left_eq x p, ← gcd_emod_left_eq y p, h]

/-- The Bezout coefficient reduced mod `p` is a modular inverse of `d` when
`gcd(d, p) = 1`; it witnesses that the search in `invMod` succeeds. -/
lemma bezout_inverse {d p : ℤ} (hg : Int.gcd d p = 1) :
    d * (Int.gcdA d p % p) ≡ 1 [ZMOD p] := by
  have hb := Int.gcd_eq_gcd_ab d p
  rw [hg] at hb
  have h1 : d * Int.gcdA d p ≡ 1 [ZMOD p] := by
    unfold Int.ModEq
    conv_rhs => rw [show (1 : ℤ) = d * Int.gcdA d p + p * Int.gcdB d p from by push_cast at hb; linarith]
    rw [Int.add_mul_emod_self_left]
  calc d * (Int.gcdA d p % p) ≡ d * Int.gcdA d p [ZMOD p] :=
        Int.ModEq.mul_left d (Int.emod_emod_of_dvd _ dvd_rfl)
    _ ≡ 1 [ZMOD p] := h1

/-- `invMod d p` is a modular inverse of `d` when `gcd(d, p) = 1`. -/
lemma invMod_spec {d p : ℤ} (hp : 0 < p) (hg : Int.gcd d p = 1) :
    d * invMod d p ≡ 1 [ZMOD p] := by
  unfold invMod
  cases hf :
    (List.range p.toNat).find? (fun t : ℕ => d * (t : ℤ) % p == 1 % p) with
  | some t =>
    have hsat := List.find?_some hf
    simp only [beq_iff_eq] at hsat
    exact hsat
  | none =>
    exfalso
    rw [List.find?_eq_none] at hf
    have hbez := bezout_inverse hg
    have ht0 : 0 ≤ Int.gcdA d p % p := Int.emod_nonneg _ (ne_of_gt hp)
    have ht0' : Int.gcdA d p % p < p := Int.emod_lt_of_pos _ hp
    have hmem : (Int.gcdA d p % p).toNat ∈ List.range p.toNat := by
      rw [List.mem_range]
      omega
    have := hf _ hmem
    rw [Int.toNat_of_nonneg ht0] at this
    exact this (by simpa using hbez)

/-- The slope value is the canonical residue in `[0, p)`. -/
lemma slopeVal_bounds {p : ℤ} (raw d : ℤ) (hp : 0 < p) :
    0 ≤ slopeVal raw d p ∧ slopeVal raw d p < p :=
  ⟨Int.emod_nonneg _ (ne_of_gt hp), Int.emod_lt_of_pos _ hp⟩

/-- Multiplying the slope value by the denominator recovers the raw numerator
modulo `p`. -/
lemma slopeVal_cong {d p : ℤ} (raw : ℤ) (hp : 0 < p)
    (hg : Int.gcd d p = 1) :
    d * slopeVal raw d p ≡ raw [ZMOD p] := by
  unfold slopeVal
  calc d * (raw % (p * d) * invMod d p % p)
      ≡ d * (raw % (p * d) * invMod d p) [ZMOD p] :=
        Int.ModEq.mul_left d (Int.emod_emod_of_dvd _ dvd_rfl)
    _ = raw % (p * d) * (d * invMod d p) := by ring
    _ ≡ raw % (p * d) * 1 [ZMOD p] :=
        Int.ModEq.mul_left _ (invMod_spec hp hg)
    _ = raw % (p * d) := by ring
    _ ≡ raw [ZMOD p] := Int.emod_emod_of_dvd _ (dvd_mul_right p d)

/-- Two integers in `[0, p)` that are congruent mod `p` are equal. -/
lemma eq_of_modEq_of_bounds {a b p : ℤ} (h : a ≡ b [ZMOD p])
    (ha : 0 ≤ a) (ha' : a < p) (hb : 0 ≤ b) (hb' : b < p) : a = b := by
  have := h
  unfold Int.ModEq at this
  rwa [Int.emod_eq_of_lt ha ha', Int.emod_eq_of_lt hb hb'] at this

/-! ### Structural lemmas about the embedded operations -/

/-- `Point.__eq__` is reflexive. -/
lemma pointEq_refl (P : Point) : pointEq P P = true := by
  obtain ⟨c, x, y⟩ := P
  unfold pointEq
  cases y <;> simp

/-- `Point.__eq__` is symmetric. -/
lemma pointEq_symm (P Q : Point) : pointEq P Q = pointEq Q P := by
  obtain ⟨cP, xP, yP⟩ := P
  obtain ⟨cQ, xQ, yQ⟩ := Q
  unfold pointEq
  cases yP <;> cases yQ <;> simp [eq_comm, Bool.and_comm]

/-- An infinite point is never `__eq__`-equal to an affine point. -/
lemma pointEq_inf_fin {P Q : Point} (hP : P.isInfinite = true)
    (hQ : Q.isInfinite = false) : pointEq P Q = false := by
  obtain ⟨cP, xP, yP⟩ := P
  obtain ⟨cQ, xQ, yQ⟩ := Q
  unfold Point.isInfinite at hP hQ
  unfold pointEq
  cases yP <;> cases yQ <;> simp_all

/-- `__eq__` on two affine points compares the coordinate pairs. -/
lemma pointEq_fin_fin {P Q : Point} (hP : P.isInfinite = false)
    (hQ : Q.isInfinite = false) :
    pointEq P Q = true ↔ P.x = Q.x ∧ P.yval = Q.yval := by
  obtain ⟨cP, xP, yP⟩ := P
  obtain ⟨cQ, xQ, yQ⟩ := Q
  unfold Point.isInfinite at hP hQ
  unfold pointEq Point.yval
  cases yP <;> cases yQ <;> simp_all

/-- `__eq__` on two infinite points compares the stored `x`-coordinates. -/
lemma pointEq_inf_inf {P Q : Point} (hP : P.isInfinite = true)
    (hQ : Q.isInfinite = true) :
    pointEq P Q = true ↔ P.x = Q.x := by
  obtain ⟨cP, xP, yP⟩ := P
  obtain ⟨cQ, xQ, yQ⟩ := Q
  unfold Point.isInfinite at hP hQ
  unfold pointEq
  cases yP <;> cases yQ <;> simp_all

/-- A point built with an infinite ordinate is infinite, one with a finite
ordinate is affine. -/
lemma mkPoint_isInfinite (x : ℤ) (y : YCoord) (c : WeierStrassEC) :
    (mkPoint x y c).isInfinite = (y matches .inf) := by
  unfold mkPoint Point.isInfinite
  cases y <;> simp

/-- The curve of an addition result is the left operand's curve. -/
lemma addCore_curve (P Q : Point) : ((P.addCore Q).1).curve = P.curve := by
  unfold Point.addCore
  split
  · rfl
  · split
    · rfl
    · cases h : P.get_slope Q <;> simp [h, mkPoint]

/-- Inverting a slope failure: the error payload determines the branch taken,
the failing denominator's gcd with the modulus, and the failure condition. -/
lemma get_slope_error_elim {P Q : Point} {g : ℕ} {isDbl : Bool}
    (h : P.get_slope Q = .error (g, isDbl)) :
    (isDbl = true ∧ pointEq P Q = true ∧ g = Int.gcd (2 * P.yval) P.curve.p ∧
      (2 * P.yval = 0 ∨ Int.gcd (2 * P.yval) P.curve.p ≠ 1)) ∨
    (isDbl = false ∧ pointEq P Q = false ∧ g = Int.gcd (Q.x - P.x) P.curve.p ∧
      (Q.x - P.x = 0 ∨ Int.gcd (Q.x - P.x) P.curve.p ≠ 1)) := by
  unfold Point.get_slope at h
  by_cases heq : pointEq P Q = true
  · left
    simp only [heq, if_true] at h
    split at h
    · rename_i hcond
      simp only [Except.error.injEq, Prod.mk.injEq] at h
      exact ⟨h.2.symm, heq, h.1.symm, hcond⟩
    · simp at h
  · right
    rw [Bool.not_eq_true] at heq
    simp only [heq, Bool.false_eq_true, if_false] at h
    split at h
    · rename_i hcond
      simp only [Except.error.injEq, Prod.mk.injEq] at h
      exact ⟨h.2.symm, heq, h.1.symm, hcond⟩
    · simp at h

/-- Inverting a slope success: the branch taken, the invertibility of the
denominator, and the returned value. -/
lemma get_slope_ok_elim {P Q : Point} {s : ℤ}
    (h : P.get_slope Q = .ok s) :
    (pointEq P Q = true ∧ 2 * P.yval ≠ 0 ∧
      Int.gcd (2 * P.yval) P.curve.p = 1 ∧
      s = slopeVal (3 * P.x ^ 2 + P.curve.a) (2 * P.yval) P.curve.p) ∨
    (pointEq P Q = false ∧ Q.x - P.x ≠ 0 ∧
      Int.gcd (Q.x - P.x) P.curve.p = 1 ∧
      s = slopeVal (Q.yval - P.yval) (Q.x - P.x) P.curve.p) := by
  unfold Point.get_slope at h
  by_cases heq : pointEq P Q = true
  · left
    simp only [heq, if_true] at h
    split at h
    · simp at h
    · rename_i hcond
      push_neg at hcond
      simp only [Except.ok.injEq] at h
      exact ⟨heq, hcond.1, hcond.2, h.symm⟩
  · right
    rw [Bool.not_eq_true] at heq
    simp only [heq, Bool.false_eq_true, if_false] at h
    split at h
    · simp at h
    · rename_i hcond
      push_neg at hcond
      simp only [Except.ok.injEq] at h
      exact ⟨heq, hcond.1, hcond.2, h.symm⟩

/-- Addition with an infinite left operand copies that operand. -/
lemma addCore_inf_left {P : Point} (Q : Point) (hP : P.isInfinite = true) :
    P.addCore Q = (mkPoint P.x .inf P.curve, none) := by
  unfold Point.addCore
  simp [hP]

/-- Addition of an affine point with an infinite right operand copies the
infinite operand. -/
lemma addCore_inf_right {P Q : Point} (hP : P.isInfinite = false)
    (hQ : Q.isInfinite = true) :
    P.addCore Q = (mkPoint Q.x .inf P.curve, none) := by
  unfold Point.addCore
  simp [hP, hQ]

/-- Addition of two affine points with a failing slope yields the infinite
point carrying the right operand's `x`, together with the failure payload. -/
lemma addCore_slope_error {P Q : Point} {e : ℕ × Bool}
    (hP : P.isInfinite = false) (hQ : Q.isInfinite = false)
    (h : P.get_slope Q = .error e) :
    P.addCore Q = (mkPoint Q.x .inf P.curve, some e) := by
  unfold Point.addCore
  simp [hP, hQ, h]

/-- Addition of two affine points with a successful slope yields the affine
chord-tangent result. -/
lemma addCore_slope_ok {P Q : Point} {s : ℤ}
    (hP : P.isInfinite = false) (hQ : Q.isInfinite = false)
    (h : P.get_slope Q = .ok s) :
    P.addCore Q =
      (mkPoint ((s ^ 2 - P.x - Q.x) % P.curve.p)
        (.fin ((s * (P.x - (s ^ 2 - P.x - Q.x) % P.curve.p) - P.yval) %
          P.curve.p)) P.curve, none) := by
  unfold Point.addCore
  simp [hP, hQ, h]

/-- The coordinates stored by the `Point` constructor. -/
lemma mkPoint_x (x : ℤ) (y : YCoord) (c : WeierStrassEC) :
    (mkPoint x y c).x = x % c.p := rfl

/-- The curve stored by the `Point` constructor. -/
lemma mkPoint_curve (x : ℤ) (y : YCoord) (c : WeierStrassEC) :
    (mkPoint x y c).curve = c := rfl

/-- The finite ordinate stored by the `Point` constructor. -/
lemma mkPoint_yval_fin (x v : ℤ) (c : WeierStrassEC) :
    (mkPoint x (.fin v) c).yval = v % c.p := rfl

/-- Subtracting a value's residue from the value leaves a multiple of the
modulus. -/
lemma sub_self_emod (a p : ℤ) : (a - a % p) % p = 0 := by
  rw [Int.sub_emod, Int.emod_emod_of_dvd _ dvd_rfl, sub_self, Int.zero_emod]

/-- Reducing the subtrahend modulo `p` does not change the residue of a
difference. -/
lemma sub_emod_right_reduce (a b p : ℤ) : (a - b % p) % p = (a - b) % p := by
  rw [Int.sub_emod, Int.emod_emod_of_dvd _ dvd_rfl, ← Int.sub_emod]

/-- Inverting an addition that recorded an inversion failure: both operands
were affine, the slope raised with that payload, and the result is the
infinite point carrying the right operand's `x`. -/
lemma addCore_sig_some {P Q R : Point} {g : ℕ} {isDbl : Bool}
    (h : P.addCore Q = (R, some (g, isDbl))) :
    P.isInfinite = false ∧ Q.isInfinite = false ∧
    P.get_slope Q = .error (g, isDbl) ∧ R = mkPoint Q.x .inf P.curve := by
  by_cases hP : P.isInfinite = true
  · rw [addCore_inf_left Q hP] at h
    simp at h
  rw [Bool.not_eq_true] at hP
  by_cases hQ : Q.isInfinite = true
  · rw [addCore_inf_right hP hQ] at h
    simp at h
  rw [Bool.not_eq_true] at hQ
  cases hsl : P.get_slope Q with
  | error e =>
    rw [addCore_slope_error hP hQ hsl] at h
    rw [Prod.mk.injEq] at h
    obtain ⟨h1, h2⟩ := h
    obtain rfl : e = (g, isDbl) := by injection h2
    exact ⟨hP, hQ, rfl, h1.symm⟩
  | ok s =>
    rw [addCore_slope_ok hP hQ hsl] at h
    simp at h

/-- An addition whose result is infinite but whose signal is `none` had an
infinite operand. -/
lemma addCore_fst_inf_sig_none {P Q R : Point}
    (h : P.addCore Q = (R, none)) (hR : R.isInfinite = true) :
    P.isInfinite = true ∨ Q.isInfinite = true := by
  by_cases hP : P.isInfinite = true
  · exact Or.inl hP
  rw [Bool.not_eq_true] at hP
  by_cases hQ : Q.isInfinite = true
  · exact Or.inr hQ
  rw [Bool.not_eq_true] at hQ
  cases hsl : P.get_slope Q with
  | error e =>
    rw [addCore_slope_error hP hQ hsl] at h
    simp at h
  | ok s =>
    rw [addCore_slope_ok hP hQ hsl] at h
    rw [Prod.mk.injEq] at h
    rw [← h.1, mkPoint_isInfinite] at hR
    simp at hR

/-- Characterization of the candidate factor computed at line 156 after
`lenstra_mul` signals an inversion failure with payload `(g, isDbl)`: when the
failing slope came from the doubling branch the two `x`-coordinates coincide
mod `p` and the candidate is `gcd(0, p) = |p|`; when it came from the
distinct-points addition branch the candidate is exactly `g`, the gcd carried
by the failing inversion.  In both cases `g` divides the modulus. -/
lemma lenstraMulGo_candidate (start : Point) (scalar : ℕ) :
    ∀ (ps : List ℕ) (st st' : LState) (g : ℕ) (isDbl : Bool),
    st.point.curve = start.curve →
    lenstraMulGo start scalar ps st = (st', .foundInf (some (g, isDbl))) →
    candidateFactor st' start.curve.p =
      (if isDbl then (start.curve.p).natAbs else g) ∧
      (g : ℤ) ∣ start.curve.p
  | [], st, st', g, isDbl, hc, h => by
    simp [lenstraMulGo] at h
  | pos :: rest, st, st', g, isDbl, hc, h => by
    simp only [lenstraMulGo] at h
    rcases hD : st.point.addCore st.point with ⟨R, sigD⟩
    have hRcurve : R.curve = start.curve := by
      rw [show R = (st.point.addCore st.point).1 from by rw [hD],
        addCore_curve, hc]
    simp only [hD] at h
    by_cases hRinf : R.isInfinite = true
    · simp only [hRinf, if_true] at h
      rw [Prod.mk.injEq] at h
      obtain ⟨hst, hsig⟩ := h
      obtain rfl : sigD = some (g, isDbl) := by injection hsig
      obtain ⟨hPfin, _, hsl, hRval⟩ := addCore_sig_some hD
      rcases get_slope_error_elim hsl with ⟨hb, _, hg, _⟩ | ⟨_, habs, _, _⟩
      · subst hb
        refine ⟨?_, by rw [hg, hc]; exact Int.gcd_dvd_right⟩
        rw [← hst]
        simp only [candidateFactor, if_true]
        rw [hRval, mkPoint_x, hc, sub_self_emod, Int.gcd_zero_left]
      · rw [pointEq_refl st.point] at habs
        exact absurd habs (by simp)
    · simp only [hRinf, if_false, Bool.false_eq_true] at h
      by_cases hbit : scalar >>> (pos - 1) % 2 = 1
      · simp only [hbit, if_true] at h
        rcases hA : R.addCore start with ⟨S, sigA⟩
        simp only [hA] at h
        by_cases hSinf : S.isInfinite = true
        · simp only [hSinf, if_true] at h
          rw [Prod.mk.injEq] at h
          obtain ⟨hst, hsig⟩ := h
          obtain rfl : sigA = some (g, isDbl) := by injection hsig
          obtain ⟨hRfin, hSfin, hsl2, hSval⟩ := addCore_sig_some hA
          rcases get_slope_error_elim hsl2 with ⟨hb, hpe, hg, _⟩ |
            ⟨hb, _, hg, _⟩
          · subst hb
            refine ⟨?_, by rw [hg, hRcurve]; exact Int.gcd_dvd_right⟩
            have hx : R.x = start.x := ((pointEq_fin_fin hRfin hSfin).mp hpe).1
            rw [← hst]
            simp only [candidateFactor, if_true]
            rw [hSval, mkPoint_x, hRcurve, hx, sub_self_emod,
              Int.gcd_zero_left]
          · subst hb
            refine ⟨?_, by rw [hg, hRcurve]; exact Int.gcd_dvd_right⟩
            rw [← hst]
            simp only [candidateFactor, if_false]
            rw [hSval, mkPoint_x, hRcurve, sub_emod_right_reduce,
              gcd_emod_left_eq, hg, hRcurve,
              show start.x - R.x = -(R.x - start.x) from by ring, Int.neg_gcd]
            simp
        · simp only [hSinf, if_false, Bool.false_eq_true] at h
          have hScurve : S.curve = start.curve := by
            rw [show S = (R.addCore start).1 from by rw [hA], addCore_curve,
              hRcurve]
          exact lenstraMulGo_candidate start scalar rest ⟨S, S⟩ st' g isDbl
            hScurve h
      · simp only [hbit, if_false] at h
        exact lenstraMulGo_candidate start scalar rest ⟨R, R⟩ st' g isDbl
          hRcurve h

/-- Inverting the curve constructor's success: the curve stores exactly the
arguments. -/
lemma mkCurve_ok_elim {a b p : ℤ} {c : WeierStrassEC}
    (h : mkCurve a b p = .ok c) : c = ⟨a, b, p⟩ := by
  unfold mkCurve at h
  split at h
  · simp at h
  · injection h with h
    exact h.symm

/-- Any factor returned by the `Point.lenstra` loop passed the
`p > factor > 1` gate. -/
lemma lenstraFrom_some_bounds {start : Point} :
    ∀ (fuel k : ℕ) (st : LState) (f : ℤ),
    lenstraFrom start fuel k st = some f →
    1 < f ∧ f < start.curve.p
  | 0, k, st, f, h => by
    simp [lenstraFrom] at h
  | fuel + 1, k, st, f, h => by
    rw [lenstraFrom] at h
    rcases hm : lenstraMul start st k with ⟨st2, out⟩
    rw [hm] at h
    cases out with
    | foundInf sig =>
      simp only at h
      split at h
      · rename_i hgate
        obtain rfl : (candidateFactor st2 start.curve.p : ℤ) = f := by
          injection h
        exact hgate
      · simp at h
    | finished =>
      exact lenstraFrom_some_bounds fuel (k + 1) st2 f h

/-- Over a prime modulus the candidate factor gate can never pass: every
gcd with the modulus is `1` or the modulus itself. -/
lemma lenstraFrom_prime_none {start : Point}
    (hp : Nat.Prime (start.curve.p).natAbs) :
    ∀ (fuel k : ℕ) (st : LState), lenstraFrom start fuel k st = none
  | 0, k, st => by
    simp [lenstraFrom]
  | fuel + 1, k, st => by
    rw [lenstraFrom]
    rcases hm : lenstraMul start st k with ⟨st2, out⟩
    cases out with
    | foundInf sig =>
      simp only
      rw [if_neg]
      rintro ⟨h1, h2⟩
      have hdvd : candidateFactor st2 start.curve.p ∣ (start.curve.p).natAbs :=
        Nat.gcd_dvd_right _ _
      rcases hp.eq_one_or_self_of_dvd _ hdvd with heq | heq
      · rw [heq] at h1
        exact absurd h1 (by norm_num)
      · rw [heq] at h2
        exact absurd h2 (not_lt.mpr Int.le_natAbs)
    | finished =>
      simp only
      exact lenstraFrom_prime_none hp fuel (k + 1) st2

/-- The sampling loop never returns a factor over a prime modulus. -/
lemma runIter_prime_none {n : ℤ} (hp : Nat.Prime n.natAbs) (maxf : ℕ) :
    ∀ samples : List (ℤ × ℤ × ℤ), runIter n maxf samples = none
  | [] => by simp [runIter]
  | (x, y, a) :: rest => by
    rw [runIter]
    cases hmk : mkCurve a ((y ^ 2 - x ^ 3 - a * x) % n) n with
    | error e =>
      simp only
      exact runIter_prime_none hp maxf rest
    | ok c =>
      simp only
      obtain rfl := mkCurve_ok_elim hmk
      have hstart : (mkPoint x (.fin y) ⟨a, (y ^ 2 - x ^ 3 - a * x) % n, n⟩).curve.p = n := rfl
      have hnone :
          (mkPoint x (.fin y) ⟨a, (y ^ 2 - x ^ 3 - a * x) % n, n⟩).lenstra maxf = none := by
        unfold Point.lenstra
        exact lenstraFrom_prime_none (by rw [hstart]; exact hp) _ _ _
      rw [hnone]
      exact runIter_prime_none hp maxf rest

/-- Any factor the sampling loop returns passed the gate for the modulus
`n`. -/
lemma runIter_some_bounds {n : ℤ} (maxf : ℕ) :
    ∀ (samples : List (ℤ × ℤ × ℤ)) (f : ℤ),
    runIter n maxf samples = some f → 1 < f ∧ f < n
  | [], f, h => by simp [runIter] at h
  | (x, y, a) :: rest, f, h => by
    rw [runIter] at h
    cases hmk : mkCurve a ((y ^ 2 - x ^ 3 - a * x) % n) n with
    | error e =>
      rw [hmk] at h
      exact runIter_some_bounds maxf rest f h
    | ok c =>
      rw [hmk] at h
      simp only at h
      cases hl : (mkPoint x (.fin y) c).lenstra maxf with
      | none =>
        rw [hl] at h
        exact runIter_some_bounds maxf rest f h
      | some f0 =>
        rw [hl] at h
        simp only at h
        split at h
        · exact runIter_some_bounds maxf rest f h
        · obtain rfl : f0 = f := by injection h
          have hb := @lenstraFrom_some_bounds (mkPoint x (.fin y) c)
            (maxf - 2) 2 ⟨mkPoint x (.fin y) c, mkPoint x (.fin y) c⟩ f0 hl
          obtain rfl := mkCurve_ok_elim hmk
          exact hb

/-- The gcd of a divisor of the modulus with the modulus is that divisor. -/
lemma gcd_of_dvd {g : ℕ} {p : ℤ} (h : (g : ℤ) ∣ p) : Int.gcd (g : ℤ) p = g := by
  have h2 : g ∣ p.natAbs := by
    have h3 := Int.natAbs_dvd_natAbs.mpr h
    rwa [Int.natAbs_ofNat] at h3
  unfold Int.gcd
  rw [Int.natAbs_ofNat]
  exact Nat.gcd_eq_left h2

/-! ### Claim theorems -/

/-- C6: for every even `n` (and any sampling outcome and smoothness bound),
`run_lenstra` returns the factor `2` immediately; since the result does not
depend on the sample list, no curve is sampled and the factor search is never
invoked. -/
theorem run_lenstra_even (n : ℤ) (samples : List (ℤ × ℤ × ℤ))
    (max_factor : ℕ) (h : n % 2 = 0) :
    run_lenstra n samples max_factor = some 2 := by
  unfold run_lenstra
  rw [if_pos (by omega)]

/-- Witness for `run_lenstra_even` at `n = 6` with a nonempty sample list. -/
theorem run_lenstra_even_witness :
    (6 : ℤ) % 2 = 0 ∧ run_lenstra 6 [(5, 5, 5)] 10 = some 2 :=
  ⟨by decide, run_lenstra_even 6 [(5, 5, 5)] 10 (by decide)⟩

/-- C7: constructing `WeierStrassEC(a, b, p)` raises the degenerate-curve
error iff `(4a³ + 27b²) % p == 0`, and otherwise succeeds storing exactly
`a`, `b`, `p`.  (The hypothesis `p ≠ 0` excludes the modulus for which
Python's `%` itself would raise `ZeroDivisionError`.) -/
theorem mkCurve_spec (a b p : ℤ) (hp : p ≠ 0) :
    (mkCurve a b p = .error .invalidCurve ↔
      (4 * a ^ 3 + 27 * b ^ 2) % p = 0) ∧
    ((4 * a ^ 3 + 27 * b ^ 2) % p ≠ 0 → mkCurve a b p = .ok ⟨a, b, p⟩) := by
  unfold mkCurve
  constructor
  · constructor
    · intro h
      by_contra hne
      rw [if_neg hne] at h
      exact absurd h (by simp)
    · intro h
      rw [if_pos h]
  · intro h
    rw [if_neg h]

/-- Witness for `mkCurve_spec` at `(a, b, p) = (1, 1, 5)`, a non-degenerate
curve. -/
theorem mkCurve_spec_witness :
    (5 : ℤ) ≠ 0 ∧ (4 * 1 ^ 3 + 27 * 1 ^ 2 : ℤ) % 5 ≠ 0 ∧
    mkCurve 1 1 5 = .ok ⟨1, 1, 5⟩ :=
  ⟨by decide, by decide, (mkCurve_spec 1 1 5 (by decide)).2 (by decide)⟩

/-- C4 (counterexample): `n = 2` is a prime modulus for which `run_lenstra`
returns a factor (namely `2`) instead of the no-factor outcome, because the
even-`n` shortcut fires before any primality consideration. -/
theorem run_lenstra_prime_two_returns_factor :
    Nat.Prime (2 : ℤ).natAbs ∧ run_lenstra 2 [] 10 = some 2 := by
  constructor
  · norm_num
  · decide

/-- C4 (amended): for every odd prime modulus `n` and every outcome of the
random sampling (any sample list, i.e. any `max_iterations`, and any
smoothness bound), `run_lenstra` returns the explicit no-factor outcome
`None`: every candidate factor is a gcd with the prime `n`, hence `1` or `n`,
and the `1 < factor < n` gate rejects both. -/
theorem run_lenstra_odd_prime_none (n : ℤ) (samples : List (ℤ × ℤ × ℤ))
    (max_factor : ℕ) (hp : Nat.Prime n.natAbs) (hodd : n % 2 = 1) :
    run_lenstra n samples max_factor = none := by
  unfold run_lenstra
  rw [if_neg (by omega)]
  exact runIter_prime_none hp max_factor samples

/-- Witness for `run_lenstra_odd_prime_none` at `n = 3` with a sample. -/
theorem run_lenstra_odd_prime_none_witness :
    Nat.Prime (3 : ℤ).natAbs ∧ (3 : ℤ) % 2 = 1 ∧
    run_lenstra 3 [(1, 1, 1)] 10 = none :=
  ⟨by norm_num, by decide,
    run_lenstra_odd_prime_none 3 [(1, 1, 1)] 10 (by norm_num) (by decide)⟩

/-- C5 (counterexample): at `n = 2` (a positive integer) the run returns the
factor `2`, which does not satisfy `1 < f < n`. -/
theorem run_lenstra_two_gate_violation :
    (0 : ℤ) < 2 ∧ run_lenstra 2 [] 10 = some 2 ∧
    ¬((1 : ℤ) < 2 ∧ (2 : ℤ) < 2) := by
  refine ⟨by decide, by decide, by decide⟩

/-- C5 (amended): for every positive integer `n` other than `2` and every
sampling outcome, a returned factor `f` satisfies `1 < f < n`; a gcd equal
to `1` or `n` is discarded by the gate in `Point.lenstra` and never
returned. -/
theorem run_lenstra_factor_bounds (n : ℤ) (samples : List (ℤ × ℤ × ℤ))
    (max_factor : ℕ) (f : ℤ) (h0 : 0 < n) (h2 : n ≠ 2)
    (h : run_lenstra n samples max_factor = some f) :
    1 < f ∧ f < n := by
  unfold run_lenstra at h
  split at h
  · rename_i hpar
    obtain rfl : (2 : ℤ) = f := by injection h
    omega
  · exact runIter_some_bounds max_factor samples f h

/-- Witness for `run_lenstra_factor_bounds` at `n = 4`, where the even
shortcut returns `2` and indeed `1 < 2 < 4`. -/
theorem run_lenstra_factor_bounds_witness :
    (0 : ℤ) < 4 ∧ (4 : ℤ) ≠ 2 ∧ run_lenstra 4 [] 10 = some 2 ∧
    ((1 : ℤ) < 2 ∧ (2 : ℤ) < 4) :=
  ⟨by decide, by decide, by decide,
    run_lenstra_factor_bounds 4 [] 10 2 (by decide) (by decide) (by decide)⟩

/-- C9 (counterexample): two identity (infinite) points carrying different
`x`-coordinates are not `__eq__`-equal, though the claim says identity points
are equal regardless of the coordinates they carry. -/
theorem pointEq_inf_points_unequal :
    (mkPoint 0 .inf ⟨1, 1, 5⟩).isInfinite = true ∧
    (mkPoint 1 .inf ⟨1, 1, 5⟩).isInfinite = true ∧
    pointEq (mkPoint 0 .inf ⟨1, 1, 5⟩) (mkPoint 1 .inf ⟨1, 1, 5⟩) = false := by
  decide

/-- C9 (amended): equality of affine points compares the `(x, y)` pairs, but
two identity points are equal iff their stored `x`-coordinates coincide (not
regardless of them), and an identity point never equals an affine point. -/
theorem pointEq_spec (P Q : Point) :
    (P.isInfinite = true → Q.isInfinite = true →
      (pointEq P Q = true ↔ P.x = Q.x)) ∧
    (P.isInfinite = false → Q.isInfinite = false →
      (pointEq P Q = true ↔ P.x = Q.x ∧ P.yval = Q.yval)) ∧
    (P.isInfinite = true → Q.isInfinite = false → pointEq P Q = false) :=
  ⟨fun h1 h2 => pointEq_inf_inf h1 h2,
   fun h1 h2 => pointEq_fin_fin h1 h2,
   fun h1 h2 => pointEq_inf_fin h1 h2⟩

/-- Witness for `pointEq_spec`: two infinite points with equal stored `x` on
the same curve are `__eq__`-equal. -/
theorem pointEq_spec_witness :
    (mkPoint 3 .inf ⟨1, 1, 5⟩).isInfinite = true ∧
    pointEq (mkPoint 3 .inf ⟨1, 1, 5⟩) (mkPoint 3 .inf ⟨1, 1, 5⟩) = true :=
  ⟨by decide,
    ((pointEq_spec (mkPoint 3 .inf ⟨1, 1, 5⟩) (mkPoint 3 .inf ⟨1, 1, 5⟩)).1
      (by decide) (by decide)).mpr (by decide)⟩

/-- C10: for points referencing equal curves, `__add__` is total — it returns
`Ok` (never the curve-mismatch exception, and a slope `ValueError` or
`ZeroDivisionError` is caught); when both operands are affine and the slope
computation raises, the result is the point-at-infinity carrying the right
operand's `x`. -/
theorem add_total (P Q : Point) (hc : P.curve = Q.curve) :
    Point.add P Q = .ok (P.addCore Q).1 ∧
    (P.isInfinite = false → Q.isInfinite = false →
      (P.get_slope Q).isOk = false →
      (P.addCore Q).1 = mkPoint Q.x .inf P.curve ∧
      ((P.addCore Q).1).isInfinite = true) := by
  constructor
  · unfold Point.add
    rw [if_neg (by simp [hc])]
  · intro hP hQ hsl
    cases hs : P.get_slope Q with
    | ok s =>
      rw [hs] at hsl
      exact absurd hsl (by simp [Except.isOk, Except.toBool])
    | error e =>
      rw [addCore_slope_error hP hQ hs]
      exact ⟨rfl, by rw [mkPoint_isInfinite]⟩

/-- Witness for `add_total`: adding the point `(1, 5)` to itself over the
composite modulus `15` hits the failing inversion (`gcd(2·5, 15) = 5 ≠ 1`)
and is converted to a point at infinity. -/
theorem add_total_witness :
    ((mkPoint 1 (.fin 5) ⟨1, 1, 15⟩).get_slope
      (mkPoint 1 (.fin 5) ⟨1, 1, 15⟩)).isOk = false ∧
    Point.add (mkPoint 1 (.fin 5) ⟨1, 1, 15⟩) (mkPoint 1 (.fin 5) ⟨1, 1, 15⟩) =
      .ok ((mkPoint 1 (.fin 5) ⟨1, 1, 15⟩).addCore
        (mkPoint 1 (.fin 5) ⟨1, 1, 15⟩)).1 ∧
    ((mkPoint 1 (.fin 5) ⟨1, 1, 15⟩).addCore
      (mkPoint 1 (.fin 5) ⟨1, 1, 15⟩)).1.isInfinite = true :=
  ⟨by decide,
    (add_total (mkPoint 1 (.fin 5) ⟨1, 1, 15⟩)
      (mkPoint 1 (.fin 5) ⟨1, 1, 15⟩) rfl).1,
    ((add_total (mkPoint 1 (.fin 5) ⟨1, 1, 15⟩)
      (mkPoint 1 (.fin 5) ⟨1, 1, 15⟩) rfl).2 (by decide) (by decide)
      (by decide)).2⟩

/-- C1 (counterexample): on the curve `(a=1, b=1, n=15)` with start point
`(1, 5)`, the first scalar multiplication of the factor search (scalar `2`,
initial state `point = next_point = start`) signals an inversion failure at a
doubling with gcd value `g = gcd(2·5, 15) = 5`, yet the candidate factor that
`Point.lenstra` tests against the gate is `gcd((point.x - next_point.x) % n,
n) = gcd(0, 15) = 15 ≠ gcd(g, n) = 5`; the useful divisor `5` is lost. -/
theorem lenstra_candidate_dbl_counterexample :
    lenstraMul (mkPoint 1 (.fin 5) ⟨1, 1, 15⟩)
      ⟨mkPoint 1 (.fin 5) ⟨1, 1, 15⟩, mkPoint 1 (.fin 5) ⟨1, 1, 15⟩⟩ 2 =
      (⟨mkPoint 1 (.fin 5) ⟨1, 1, 15⟩, mkPoint 1 .inf ⟨1, 1, 15⟩⟩,
        .foundInf (some (5, true))) ∧
    candidateFactor
      ⟨mkPoint 1 (.fin 5) ⟨1, 1, 15⟩, mkPoint 1 .inf ⟨1, 1, 15⟩⟩
      (mkPoint 1 (.fin 5) (⟨1, 1, 15⟩ : WeierStrassEC)).curve.p = 15 ∧
    Int.gcd ((5 : ℕ) : ℤ)
      (mkPoint 1 (.fin 5) (⟨1, 1, 15⟩ : WeierStrassEC)).curve.p = 5 ∧
    (15 : ℕ) ≠ 5 ∧
    (mkPoint 1 (.fin 5) ⟨1, 1, 15⟩).lenstra 1000 = none := by
  decide

/-- C1 (amended): when the scalar multiplication inside the factor search
signals an inversion failure whose failing slope came from the
distinct-points addition branch, the candidate factor tested against the
`1 < factor < n` gate equals `gcd(g, n)` for the carried gcd `g`; when the
failing slope came from the doubling branch the candidate is instead
`gcd(0, n) = n` (see the counterexample). -/
theorem lenstra_candidate_eq_gcd (start : Point) (scalar : ℕ)
    (st st' : LState) (g : ℕ) (hc : st.point.curve = start.curve)
    (h : lenstraMul start st scalar = (st', .foundInf (some (g, false)))) :
    candidateFactor st' start.curve.p = Int.gcd (g : ℤ) start.curve.p := by
  unfold lenstraMul at h
  obtain ⟨hcand, hdvd⟩ := lenstraMulGo_candidate start scalar
    (bitPositions scalar) st st' g false hc h
  rw [gcd_of_dvd hdvd, hcand]
  simp

/-- Witness for `lenstra_candidate_eq_gcd`: over `n = 15` with start point
`(9, 1)` and accumulated point `(0, 1)`, scalar `3` first doubles to
`(4, 12)` and then fails adding the start (`gcd(9 - 4, 15) = 5`); the tested
candidate is `gcd((4 - 9) % 15, 15) = 5 = gcd(5, 15)`. -/
theorem lenstra_candidate_eq_gcd_witness :
    (⟨mkPoint 0 (.fin 1) ⟨1, 1, 15⟩, mkPoint 0 (.fin 1) ⟨1, 1, 15⟩⟩ :
      LState).point.curve = (mkPoint 9 (.fin 1) ⟨1, 1, 15⟩).curve ∧
    lenstraMul (mkPoint 9 (.fin 1) ⟨1, 1, 15⟩)
      ⟨mkPoint 0 (.fin 1) ⟨1, 1, 15⟩, mkPoint 0 (.fin 1) ⟨1, 1, 15⟩⟩ 3 =
      (⟨mkPoint 4 (.fin 12) ⟨1, 1, 15⟩, mkPoint 9 .inf ⟨1, 1, 15⟩⟩,
        .foundInf (some (5, false))) ∧
    candidateFactor
      ⟨mkPoint 4 (.fin 12) ⟨1, 1, 15⟩, mkPoint 9 .inf ⟨1, 1, 15⟩⟩
      (mkPoint 9 (.fin 1) (⟨1, 1, 15⟩ : WeierStrassEC)).curve.p =
      Int.gcd ((5 : ℕ) : ℤ)
        (mkPoint 9 (.fin 1) (⟨1, 1, 15⟩ : WeierStrassEC)).curve.p :=
  ⟨rfl, by decide,
    lenstra_candidate_eq_gcd (mkPoint 9 (.fin 1) ⟨1, 1, 15⟩) 3
      ⟨mkPoint 0 (.fin 1) ⟨1, 1, 15⟩, mkPoint 0 (.fin 1) ⟨1, 1, 15⟩⟩
      ⟨mkPoint 4 (.fin 12) ⟨1, 1, 15⟩, mkPoint 9 .inf ⟨1, 1, 15⟩⟩ 5 rfl
      (by decide)⟩

/-- C2 (counterexample): for the affine point `P = (1, 2)` and the identity
point `O` on the curve `(1, 1, 5)`, both `P + O` and `O + P` return a copy of
the infinite operand `O`, which is not `__eq__`-equal to `P`; the claimed
identity laws `P + Infinity == P` and `Infinity + P == P` fail. -/
theorem add_identity_counterexample :
    Point.add (mkPoint 1 (.fin 2) ⟨1, 1, 5⟩) (mkPoint 0 .inf ⟨1, 1, 5⟩) =
      .ok (mkPoint 0 .inf ⟨1, 1, 5⟩) ∧
    Point.add (mkPoint 0 .inf ⟨1, 1, 5⟩) (mkPoint 1 (.fin 2) ⟨1, 1, 5⟩) =
      .ok (mkPoint 0 .inf ⟨1, 1, 5⟩) ∧
    pointEq (mkPoint 0 .inf ⟨1, 1, 5⟩) (mkPoint 1 (.fin 2) ⟨1, 1, 5⟩) =
      false := by
  decide

/-- C2 (amended): adding an identity operand on either side of an affine
point returns a copy of the infinite operand (an infinite point carrying the
infinite operand's `x`), not the affine point; the result is never
`__eq__`-equal to the affine operand.  The claimed law holds only when both
operands are the same infinite point. -/
theorem add_identity_copies (P Q : Point) (hc : P.curve = Q.curve)
    (hP : P.isInfinite = false) (hQ : Q.isInfinite = true) :
    Point.add P Q = .ok (mkPoint Q.x .inf P.curve) ∧
    Point.add Q P = .ok (mkPoint Q.x .inf Q.curve) ∧
    pointEq (mkPoint Q.x .inf P.curve) P = false ∧
    pointEq (mkPoint Q.x .inf Q.curve) P = false := by
  refine ⟨?_, ?_, ?_, ?_⟩
  · unfold Point.add
    rw [if_neg (by simp [hc])]
    rw [addCore_inf_right hP hQ]
  · unfold Point.add
    rw [if_neg (by simp [hc])]
    rw [addCore_inf_left P hQ]
  · exact pointEq_inf_fin (by rw [mkPoint_isInfinite]) hP
  · exact pointEq_inf_fin (by rw [mkPoint_isInfinite]) hP

/-- Witness for `add_identity_copies` at `P = (1, 2)`, `Q` the identity with
stored `x = 0`, on the curve `(1, 1, 5)`. -/
theorem add_identity_copies_witness :
    (mkPoint 1 (.fin 2) ⟨1, 1, 5⟩).isInfinite = false ∧
    (mkPoint 0 .inf ⟨1, 1, 5⟩).isInfinite = true ∧
    pointEq
      (mkPoint (mkPoint 0 .inf (⟨1, 1, 5⟩ : WeierStrassEC)).x .inf
        (mkPoint 1 (.fin 2) (⟨1, 1, 5⟩ : WeierStrassEC)).curve)
      (mkPoint 1 (.fin 2) ⟨1, 1, 5⟩) = false :=
  ⟨by decide, by decide,
    (add_identity_copies (mkPoint 1 (.fin 2) ⟨1, 1, 5⟩)
      (mkPoint 0 .inf ⟨1, 1, 5⟩) rfl (by decide) (by decide)).2.2.1⟩

/-- C3: for affine `P` and `Q` on the same curve with a successful slope
inversion, `P + Q` is the affine point with `x_R = (s² - x_P - x_Q) mod n`
and `y_R = (s(x_P - x_R) - y_P) mod n`, where the slope `s` is the canonical
residue in `[0, n)` satisfying `(2 y_P) · s ≡ 3 x_P² + a (mod n)` in the
doubling case `P == Q`, and `(x_Q - x_P) · s ≡ y_Q - y_P (mod n)`
otherwise — i.e. `s = (3x² + a)·(2y)⁻¹ mod n` resp.
`s = (y_Q - y_P)·(x_Q - x_P)⁻¹ mod n`. -/
theorem add_affine_formula (P Q : Point) (s : ℤ) (hc : P.curve = Q.curve)
    (hP : P.isInfinite = false) (hQ : Q.isInfinite = false)
    (hp : 0 < P.curve.p) (hs : P.get_slope Q = .ok s) :
    Point.add P Q = .ok (mkPoint ((s ^ 2 - P.x - Q.x) % P.curve.p)
      (.fin ((s * (P.x - (s ^ 2 - P.x - Q.x) % P.curve.p) - P.yval) %
        P.curve.p)) P.curve) ∧
    0 ≤ s ∧ s < P.curve.p ∧
    (pointEq P Q = true →
      2 * P.yval * s ≡ 3 * P.x ^ 2 + P.curve.a [ZMOD P.curve.p]) ∧
    (pointEq P Q = false →
      (Q.x - P.x) * s ≡ Q.yval - P.yval [ZMOD P.curve.p]) := by
  have hadd : Point.add P Q = .ok (P.addCore Q).1 := by
    unfold Point.add
    rw [if_neg (by simp [hc])]
  rcases get_slope_ok_elim hs with ⟨hpe, hd0, hg, hsv⟩ | ⟨hpe, hd0, hg, hsv⟩
  · refine ⟨?_, ?_, ?_, ?_, ?_⟩
    · rw [hadd, addCore_slope_ok hP hQ hs]
    · rw [hsv]
      exact (slopeVal_bounds _ _ hp).1
    · rw [hsv]
      exact (slopeVal_bounds _ _ hp).2
    · intro _
      rw [hsv]
      exact slopeVal_cong _ hp hg
    · intro hcontra
      rw [hpe] at hcontra
      exact absurd hcontra (by simp)
  · refine ⟨?_, ?_, ?_, ?_, ?_⟩
    · rw [hadd, addCore_slope_ok hP hQ hs]
    · rw [hsv]
      exact (slopeVal_bounds _ _ hp).1
    · rw [hsv]
      exact (slopeVal_bounds _ _ hp).2
    · intro hcontra
      rw [hpe] at hcontra
      exact absurd hcontra (by simp)
    · intro _
      rw [hsv]
      exact slopeVal_cong _ hp hg

/-- Witness for `add_affine_formula`: doubling `(0, 1)` on the curve
`(1, 1, 5)` succeeds with slope `s = 3` (the inverse of `2` mod `5` is `3`),
and the slope residue lies in `[0, 5)`. -/
theorem add_affine_formula_witness :
    (0 : ℤ) < (mkPoint 0 (.fin 1) (⟨1, 1, 5⟩ : WeierStrassEC)).curve.p ∧
    (mkPoint 0 (.fin 1) ⟨1, 1, 5⟩).get_slope (mkPoint 0 (.fin 1) ⟨1, 1, 5⟩) =
      .ok 3 ∧
    (0 ≤ (3 : ℤ) ∧
      (3 : ℤ) < (mkPoint 0 (.fin 1) (⟨1, 1, 5⟩ : WeierStrassEC)).curve.p) :=
  ⟨by decide, by decide,
    (add_affine_formula (mkPoint 0 (.fin 1) ⟨1, 1, 5⟩)
      (mkPoint 0 (.fin 1) ⟨1, 1, 5⟩) 3 rfl (by decide) (by decide) (by decide)
      (by decide)).2.1,
    (add_affine_formula (mkPoint 0 (.fin 1) ⟨1, 1, 5⟩)
      (mkPoint 0 (.fin 1) ⟨1, 1, 5⟩) 3 rfl (by decide) (by decide) (by decide)
      (by decide)).2.2.1⟩

/-- C8 (counterexample): on the valid non-degenerate curve `(1, 1, 5)` the
two identity points with stored `x = 0` and `x = 1` add successfully in both
orders (no inversion is attempted), yet `P + Q` is a copy of `P` while
`Q + P` is a copy of `Q`, and the results are not `__eq__`-equal. -/
theorem add_comm_counterexample :
    (4 * 1 ^ 3 + 27 * 1 ^ 2 : ℤ) % 5 ≠ 0 ∧
    ((mkPoint 0 .inf ⟨1, 1, 5⟩).addCore (mkPoint 1 .inf ⟨1, 1, 5⟩)).2 =
      none ∧
    ((mkPoint 1 .inf ⟨1, 1, 5⟩).addCore (mkPoint 0 .inf ⟨1, 1, 5⟩)).2 =
      none ∧
    pointEq ((mkPoint 0 .inf ⟨1, 1, 5⟩).addCore (mkPoint 1 .inf ⟨1, 1, 5⟩)).1
      ((mkPoint 1 .inf ⟨1, 1, 5⟩).addCore (mkPoint 0 .inf ⟨1, 1, 5⟩)).1 =
      false := by
  decide

/-- C8 (amended): for points `P`, `Q` on the same curve with positive
modulus, if neither `P + Q` nor `Q + P` takes the inversion-failure branch,
and `P`, `Q` are not two identity points with different stored
`x`-residues, then `P + Q == Q + P`. -/
theorem add_comm_of_success (P Q : Point) (hc : P.curve = Q.curve)
    (hp : 0 < P.curve.p)
    (h1 : (P.addCore Q).2 = none) (h2 : (Q.addCore P).2 = none)
    (hx : P.isInfinite = true → Q.isInfinite = true →
      P.x % P.curve.p = Q.x % P.curve.p) :
    pointEq (P.addCore Q).1 (Q.addCore P).1 = true := by
  by_cases hPinf : P.isInfinite = true
  · by_cases hQinf : Q.isInfinite = true
    · rw [addCore_inf_left Q hPinf, addCore_inf_left P hQinf]
      show pointEq (mkPoint P.x .inf P.curve) (mkPoint Q.x .inf Q.curve) =
        true
      refine (pointEq_inf_inf (by rw [mkPoint_isInfinite])
        (by rw [mkPoint_isInfinite])).mpr ?_
      rw [mkPoint_x, mkPoint_x, ← hc]
      exact hx hPinf hQinf
    · rw [Bool.not_eq_true] at hQinf
      rw [addCore_inf_left Q hPinf, addCore_inf_right hQinf hPinf]
      show pointEq (mkPoint P.x .inf P.curve) (mkPoint P.x .inf Q.curve) =
        true
      refine (pointEq_inf_inf (by rw [mkPoint_isInfinite])
        (by rw [mkPoint_isInfinite])).mpr ?_
      rw [mkPoint_x, mkPoint_x, hc]
  · rw [Bool.not_eq_true] at hPinf
    by_cases hQinf : Q.isInfinite = true
    · rw [addCore_inf_right hPinf hQinf, addCore_inf_left P hQinf]
      show pointEq (mkPoint Q.x .inf P.curve) (mkPoint Q.x .inf Q.curve) =
        true
      refine (pointEq_inf_inf (by rw [mkPoint_isInfinite])
        (by rw [mkPoint_isInfinite])).mpr ?_
      rw [mkPoint_x, mkPoint_x, hc]
    · rw [Bool.not_eq_true] at hQinf
      obtain ⟨s1, hsl1⟩ : ∃ s, P.get_slope Q = .ok s := by
        cases hsl : P.get_slope Q with
        | error e =>
          rw [addCore_slope_error hPinf hQinf hsl] at h1
          exact absurd h1 (by simp)
        | ok s => exact ⟨s, rfl⟩
      obtain ⟨s2, hsl2⟩ : ∃ s, Q.get_slope P = .ok s := by
        cases hsl : Q.get_slope P with
        | error e =>
          rw [addCore_slope_error hQinf hPinf hsl] at h2
          exact absurd h2 (by simp)
        | ok s => exact ⟨s, rfl⟩
      have hp' : 0 < Q.curve.p := hc ▸ hp
      rcases get_slope_ok_elim hsl1 with ⟨hpe1, hd1, hg1, hv1⟩ |
        ⟨hpe1, hd1, hg1, hv1⟩
      · -- doubling on both sides
        have hpe1' := hpe1
        rw [pointEq_symm] at hpe1'
        obtain ⟨hxe, hye⟩ := (pointEq_fin_fin hPinf hQinf).mp hpe1
        rcases get_slope_ok_elim hsl2 with ⟨hpe2, hd2, hg2, hv2⟩ |
          ⟨hpe2, _, _, _⟩
        · have hs12 : s1 = s2 := by
            rw [hv1, hv2, hxe, hye, hc]
          rw [addCore_slope_ok hPinf hQinf hsl1,
            addCore_slope_ok hQinf hPinf hsl2]
          show pointEq
            (mkPoint ((s1 ^ 2 - P.x - Q.x) % P.curve.p)
              (.fin ((s1 * (P.x - (s1 ^ 2 - P.x - Q.x) % P.curve.p) -
                P.yval) % P.curve.p)) P.curve)
            (mkPoint ((s2 ^ 2 - Q.x - P.x) % Q.curve.p)
              (.fin ((s2 * (Q.x - (s2 ^ 2 - Q.x - P.x) % Q.curve.p) -
                Q.yval) % Q.curve.p)) Q.curve) = true
          rw [hxe, hye, hc, hs12]
          exact pointEq_refl _
        · rw [hpe1'] at hpe2
          exact absurd hpe2 (by simp)
      · -- general addition on both sides
        have hpe1' := hpe1
        rw [pointEq_symm] at hpe1'
        rcases get_slope_ok_elim hsl2 with ⟨hpe2, _, _, _⟩ |
          ⟨hpe2, hd2, hg2, hv2⟩
        · rw [hpe1'] at hpe2
          exact absurd hpe2 (by simp)
        · have hcong1 : (Q.x - P.x) * s1 ≡ Q.yval - P.yval
              [ZMOD P.curve.p] := by
            rw [hv1]
            exact slopeVal_cong _ hp hg1
          have hcong2 : (P.x - Q.x) * s2 ≡ P.yval - Q.yval
              [ZMOD Q.curve.p] := by
            rw [hv2]
            exact slopeVal_cong _ hp' hg2
          rw [← hc] at hcong2
          have hcong2' : (Q.x - P.x) * s2 ≡ Q.yval - P.yval
              [ZMOD P.curve.p] := by
            have hneg := hcong2.neg
            rw [show -((P.x - Q.x) * s2) = (Q.x - P.x) * s2 from by ring,
              neg_sub] at hneg
            exact hneg
          have hb1 := hv1 ▸ slopeVal_bounds (Q.yval - P.yval) (Q.x - P.x) hp
          have hb2 := hv2 ▸ slopeVal_bounds (P.yval - Q.yval) (P.x - Q.x) hp'
          rw [← hc] at hb2
          have hs12 : s1 = s2 := by
            have hmul : (Q.x - P.x) * s1 ≡ (Q.x - P.x) * s2
                [ZMOD P.curve.p] := hcong1.trans hcong2'.symm
            have hdiv := Int.ModEq.cancel_left_div_gcd hp hmul
            rw [Int.gcd_comm, hg1] at hdiv
            rw [Nat.cast_one, Int.ediv_one] at hdiv
            exact eq_of_modEq_of_bounds hdiv hb1.1 hb1.2 hb2.1 hb2.2
          rw [addCore_slope_ok hPinf hQinf hsl1,
            addCore_slope_ok hQinf hPinf hsl2]
          show pointEq
            (mkPoint ((s1 ^ 2 - P.x - Q.x) % P.curve.p)
              (.fin ((s1 * (P.x - (s1 ^ 2 - P.x - Q.x) % P.curve.p) -
                P.yval) % P.curve.p)) P.curve)
            (mkPoint ((s2 ^ 2 - Q.x - P.x) % Q.curve.p)
              (.fin ((s2 * (Q.x - (s2 ^ 2 - Q.x - P.x) % Q.curve.p) -
                Q.yval) % Q.curve.p)) Q.curve) = true
          rw [← hc, ← hs12,
            show s1 ^ 2 - Q.x - P.x = s1 ^ 2 - P.x - Q.x from by ring]
          refine (pointEq_fin_fin (by rw [mkPoint_isInfinite])
            (by rw [mkPoint_isInfinite])).mpr ⟨?_, ?_⟩
          · rw [mkPoint_x, mkPoint_x]
          · rw [mkPoint_yval_fin, mkPoint_yval_fin,
              Int.emod_emod_of_dvd _ dvd_rfl, Int.emod_emod_of_dvd _ dvd_rfl]
            show s1 * (P.x - (s1 ^ 2 - P.x - Q.x) % P.curve.p) - P.yval ≡
              s1 * (Q.x - (s1 ^ 2 - P.x - Q.x) % P.curve.p) - Q.yval
              [ZMOD P.curve.p]
            have hzero : (Q.yval - P.yval) - (Q.x - P.x) * s1 ≡ 0
                [ZMOD P.curve.p] := by
              have hsub := Int.ModEq.sub (Int.ModEq.refl (Q.yval - P.yval))
                hcong1
              rwa [sub_self] at hsub
            calc s1 * (P.x - (s1 ^ 2 - P.x - Q.x) % P.curve.p) - P.yval
                = (s1 * (Q.x - (s1 ^ 2 - P.x - Q.x) % P.curve.p) - Q.yval) +
                  ((Q.yval - P.yval) - (Q.x - P.x) * s1) := by ring
              _ ≡ (s1 * (Q.x - (s1 ^ 2 - P.x - Q.x) % P.curve.p) - Q.yval) +
                  0 [ZMOD P.curve.p] :=
                  Int.ModEq.add (Int.ModEq.refl _) hzero
              _ = s1 * (Q.x - (s1 ^ 2 - P.x - Q.x) % P.curve.p) - Q.yval :=
                  by ring

/-- Witness for `add_comm_of_success`: the affine points `(1, 2)` and
`(4, 2)` on the curve `(1, 1, 5)` add successfully in both orders and the
results agree. -/
theorem add_comm_of_success_witness :
    (0 : ℤ) < (mkPoint 1 (.fin 2) (⟨1, 1, 5⟩ : WeierStrassEC)).curve.p ∧
    ((mkPoint 1 (.fin 2) ⟨1, 1, 5⟩).addCore (mkPoint 4 (.fin 2) ⟨1, 1, 5⟩)).2 =
      none ∧
    ((mkPoint 4 (.fin 2) ⟨1, 1, 5⟩).addCore (mkPoint 1 (.fin 2) ⟨1, 1, 5⟩)).2 =
      none ∧
    pointEq
      ((mkPoint 1 (.fin 2) ⟨1, 1, 5⟩).addCore (mkPoint 4 (.fin 2) ⟨1, 1, 5⟩)).1
      ((mkPoint 4 (.fin 2) ⟨1, 1, 5⟩).addCore (mkPoint 1 (.fin 2) ⟨1, 1, 5⟩)).1 =
      true :=
  ⟨by decide, by decide, by decide,
    add_comm_of_success (mkPoint 1 (.fin 2) ⟨1, 1, 5⟩)
      (mkPoint 4 (.fin 2) ⟨1, 1, 5⟩) rfl (by decide) (by decide) (by decide)
      (by decide)⟩

end LenstraPy
